import Mathlib

/-!
Shallow embedding of the config-context-comparator core pipeline
(format detection, parsing dispatch, flattening, flat-config comparison),
translated from the TypeScript sources `comparator.ts` and `parsers.ts`.

JavaScript strings are modelled as Lean `String`/`List Char`; the JS string
primitives used by the code (`trim`, `split`, `startsWith`, `toLowerCase`,
`includes`) are reimplemented below on `List Char` with JS semantics.
External parser libraries (`JSON.parse`, `@iarna/toml`, `yaml`, `ini`,
`fast-xml-parser`) are not part of this repository; calls into them are
modelled as oracle parameters (`jsonOk`, `tomlOk`, `lib`).
-/

namespace ConfigCmp

/-- The JS whitespace class `\s` restricted to the characters that can occur
inside a single line (space, tab, carriage return, vertical tab, form feed)
plus the newline itself. -/
def jsWs (c : Char) : Bool :=
  c = ' ' || c = '\t' || c = '\r' || c = '\n' || c = Char.ofNat 11 || c = Char.ofNat 12

/-- JS `String.prototype.trim`: drop leading and trailing whitespace. -/
def trimL (l : List Char) : List Char :=
  ((l.dropWhile jsWs).reverse.dropWhile jsWs).reverse

/-- `pat` is a leading segment of `s` (JS `startsWith` on char lists). -/
def isPre : List Char → List Char → Bool
  | [], _ => true
  | _ :: _, [] => false
  | a :: ps, b :: ss => a = b && isPre ps ss

/-- JS `String.prototype.includes`: `pat` occurs contiguously inside `s`. -/
def containsSub (s pat : List Char) : Bool :=
  match s with
  | [] => pat.isEmpty
  | _ :: rest => isPre pat s || containsSub rest pat

/-- JS `String.prototype.split` with a one-character separator: splits at every
occurrence of `sep`, keeping empty segments, never returning an empty list. -/
def jsSplit (sep : Char) : List Char → List (List Char)
  | [] => [[]]
  | c :: rest =>
    match jsSplit sep rest with
    | [] => [[]]
    | h :: t => if c = sep then [] :: h :: t else (c :: h) :: t

/-- JS `Array.prototype.join` with a one-character separator. -/
def jsJoin (sep : Char) : List (List Char) → List Char
  | [] => []
  | [l] => l
  | l :: rest => l ++ sep :: jsJoin sep rest

/-- JS `String.prototype.toLowerCase` (ASCII range, which is all the code
compares against). -/
def jsLower (l : List Char) : List Char := l.map Char.toLower

/-- The closed format enumeration from `types.ts`. -/
inductive ConfigFormat where
  | json | yaml | toml | ini | xml | properties
deriving DecidableEq, Repr

/-- A scalar value of a flattened config: `string | number | boolean | null`
(`types.ts`, `FlatConfig`).  JS numbers are modelled as integers, which covers
every numeric literal the specification exercises. -/
inductive Scalar where
  | str (s : String)
  | num (n : Int)
  | bool (b : Bool)
  | null
deriving DecidableEq, Repr

/-- A parsed nested configuration tree (`ConfigObject` plus the dynamic values
`flattenConfig` dispatches on): scalar, array, or object with ordered
string-keyed entries. -/
inductive ConfigNode where
  | scalar (v : Scalar)
  | arr (elems : List ConfigNode)
  | obj (entries : List (String × ConfigNode))

/-- `FlatConfig`: a JS object mapping path strings to scalars, modelled as an
insertion-ordered association list.  JS object keys are unique, so the key
list of a real `FlatConfig` never repeats. -/
abbrev FlatConfig := List (String × Scalar)

/-- JS `String(v)` on a flat-config scalar. -/
def jsString : Scalar → String
  | .str s => s
  | .num n => toString n
  | .bool b => if b then "true" else "false"
  | .null => "null"

/-- `[a-zA-Z_]`, the first character of the detector's identifier patterns. -/
def isIdentStart (c : Char) : Bool := c.isAlpha || c = '_'

/-- `[a-zA-Z0-9_\-]`, the identifier body of the key-assignment pattern. -/
def identChar (c : Char) : Bool := c.isAlphanum || c = '_' || c = '-'

/-- `[a-zA-Z0-9_.\-]`, the identifier body of the properties pattern. -/
def propIdentChar (c : Char) : Bool := c.isAlphanum || c = '_' || c = '.' || c = '-'

/-- `[a-zA-Z0-9_]`, the identifier body of the YAML pattern. -/
def yamlIdentChar (c : Char) : Bool := c.isAlphanum || c = '_'

/-- The specification's `hasSectionHeader` signal read per line: a single
line that is exactly a bracketed section name (whitespace allowed around it).
This is the section-header regex `/^\s*\[[^\[\]]+\]\s*$/m` restricted to
matches that stay within one line; the code's regex also admits matches
spanning newlines, captured by `sectionAt` below. -/
def sectionLine (line : List Char) : Bool :=
  match line.dropWhile jsWs with
  | '[' :: rest =>
    !(rest.takeWhile (fun c => !(c == '[' || c == ']'))).isEmpty &&
    (match rest.dropWhile (fun c => !(c == '[' || c == ']')) with
     | ']' :: tail => tail.all jsWs
     | _ => false)
  | _ => false

/-- The specification's `hasKeyAssignment` signal read per line: a line
beginning with an identifier-like token followed by `=`.  This is the
key-assignment regex `/^[a-zA-Z_][a-zA-Z0-9_\-]*\s*=/m` restricted to
matches that stay within one line (`assignAt` below is the full version). -/
def assignLine (line : List Char) : Bool :=
  match line with
  | c :: rest =>
    isIdentStart c &&
    (match (rest.dropWhile identChar).dropWhile jsWs with
     | '=' :: _ => true
     | _ => false)
  | [] => false

/-- The properties regex `/^[a-zA-Z_][a-zA-Z0-9_.\-]*\s*=\s*\S/m` restricted
to matches that stay within one line (`propAt` below is the full version). -/
def propLine (line : List Char) : Bool :=
  match line with
  | c :: rest =>
    isIdentStart c &&
    (match (rest.dropWhile propIdentChar).dropWhile jsWs with
     | '=' :: after => !(after.dropWhile jsWs).isEmpty
     | _ => false)
  | [] => false

/-- The YAML regex `/^[a-zA-Z_][a-zA-Z0-9_]*\s*:/m` restricted to matches
that stay within one line (`yamlAt` below is the full version). -/
def yamlLine (line : List Char) : Bool :=
  match line with
  | c :: rest =>
    isIdentStart c &&
    (match (rest.dropWhile yamlIdentChar).dropWhile jsWs with
     | ':' :: _ => true
     | _ => false)
  | [] => false

/-- The lines of a content string, as JS `content.split('\n')` produces them.
The per-line matchers above describe the `/m` regexes' single-line matches
over exactly these segments; the content-level matchers below additionally
capture the matches JS allows to span newlines. -/
def linesOf (content : String) : List (List Char) := jsSplit '\n' content.data

/-- In a JS `/m` regex, `^` matches at the start of the string and right
after every `\n`.  These are the suffixes of the content starting at the
positions right after each `\n`. -/
def afterNewlines : List Char → List (List Char)
  | [] => []
  | c :: rest => (if c = '\n' then [rest] else []) ++ afterNewlines rest

/-- All suffixes of the content at which the `/m` anchor `^` can match: the
whole content plus every suffix following a `\n`. -/
def lineStartSuffixes (cs : List Char) : List (List Char) := cs :: afterNewlines cs

/-- `\s*$` under `/m`, starting anywhere in the content: a run of whitespace
reaching the end of the string or a position right before a `\n`. -/
def wsThenLineEnd : List Char → Bool
  | [] => true
  | c :: rest => if c = '\n' then true else if jsWs c then wsThenLineEnd rest else false

/-- The section-header regex `\s*\[[^\[\]]+\]\s*$` matched from a `^` anchor
position over the whole remaining content.  In JS, `\s` and the negated class
`[^\[\]]` both match `\n`, so the leading whitespace, bracket interior and
trailing whitespace may all span newlines. -/
def sectionAt (s : List Char) : Bool :=
  match s.dropWhile jsWs with
  | '[' :: rest =>
    !(rest.takeWhile (fun c => !(c == '[' || c == ']'))).isEmpty &&
    (match rest.dropWhile (fun c => !(c == '[' || c == ']')) with
     | ']' :: tail => wsThenLineEnd tail
     | _ => false)
  | _ => false

/-- The key-assignment regex `[a-zA-Z_][a-zA-Z0-9_\-]*\s*=` matched from a
`^` anchor position; the `\s*` may span newlines. -/
def assignAt (s : List Char) : Bool :=
  match s with
  | c :: rest =>
    isIdentStart c &&
    (match (rest.dropWhile identChar).dropWhile jsWs with
     | '=' :: _ => true
     | _ => false)
  | [] => false

/-- The properties regex `[a-zA-Z_][a-zA-Z0-9_.\-]*\s*=\s*\S` matched from a
`^` anchor position; both `\s*` runs may span newlines. -/
def propAt (s : List Char) : Bool :=
  match s with
  | c :: rest =>
    isIdentStart c &&
    (match (rest.dropWhile propIdentChar).dropWhile jsWs with
     | '=' :: after => !(after.dropWhile jsWs).isEmpty
     | _ => false)
  | [] => false

/-- The YAML regex `[a-zA-Z_][a-zA-Z0-9_]*\s*:` matched from a `^` anchor
position; the `\s*` may span newlines. -/
def yamlAt (s : List Char) : Bool :=
  match s with
  | c :: rest =>
    isIdentStart c &&
    (match (rest.dropWhile yamlIdentChar).dropWhile jsWs with
     | ':' :: _ => true
     | _ => false)
  | [] => false

/-- `/^\s*\[[^\[\]]+\]\s*$/m.test(content)` (the code's `hasSection`). -/
def hasSection (content : String) : Bool :=
  (lineStartSuffixes content.data).any sectionAt

/-- `/^[a-zA-Z_][a-zA-Z0-9_\-]*\s*=/m.test(content)` (the code's
`hasSectionAssignment`). -/
def hasSectionAssignment (content : String) : Bool :=
  (lineStartSuffixes content.data).any assignAt

/-- `/^[a-zA-Z_][a-zA-Z0-9_.\-]*\s*=\s*\S/m.test(content)` (the code's
`hasProperties`). -/
def hasProperties (content : String) : Bool :=
  (lineStartSuffixes content.data).any propAt

/-- `/^[a-zA-Z_][a-zA-Z0-9_]*\s*:/m.test(content)` (the code's YAML test). -/
def hasYamlKey (content : String) : Bool :=
  (lineStartSuffixes content.data).any yamlAt

/-- `detectFormat` from `parsers.ts`.  `jsonOk` stands for "`JSON.parse`
succeeds" and `tomlOk` for "`toml.parse` succeeds"; both are external library
calls taken as oracle parameters. -/
def detectFormat (jsonOk tomlOk : String → Bool) (content : String) :
    Option ConfigFormat :=
  let stripped := trimL content.data
  -- 1. JSON: starts with { or [, and JSON.parse succeeds (else fall through)
  if (isPre "\x7b".data stripped || isPre "[".data stripped)
      && jsonOk (String.mk stripped) then
    some .json
  -- 2. XML: starts with < or has <?xml declaration
  else if isPre "<".data stripped
      || containsSub (jsLower content.data) "<?xml".data then
    some .xml
  -- 3./4. TOML/INI: has [section] with key=value
  else if hasSection content && hasSectionAssignment content then
    if tomlOk content then some .toml else some .ini
  -- 5. Properties: key=value pattern, no sections
  else if hasProperties content && !hasSection content then
    some .properties
  -- 6. YAML: key: pattern
  else if hasYamlKey content then
    some .yaml
  else
    none

/-- `getFormatFromExtension` from `parsers.ts`: last `.`-separated segment of
the lowercased path, looked up in the extension table. -/
def getFormatFromExtension (filepath : String) : Option ConfigFormat :=
  let ext := (jsSplit '.' (jsLower filepath.data)).getLastD []
  if ext = "json".data then some .json
  else if ext = "yaml".data then some .yaml
  else if ext = "yml".data then some .yaml
  else if ext = "toml".data then some .toml
  else if ext = "ini".data then some .ini
  else if ext = "xml".data then some .xml
  else if ext = "properties".data then some .properties
  else none

/-- A parsed top-level config object: ordered entries of a JS object. -/
abbrev ConfigObject := List (String × ConfigNode)

/-- JS object property assignment `props[k] = v`: overwrite in place when the
key exists, else append. -/
def jsInsert (m : ConfigObject) (k : String) (v : ConfigNode) : ConfigObject :=
  if m.any (fun p => p.1 == k) then
    m.map (fun p => if p.1 = k then (k, v) else p)
  else m ++ [(k, v)]

/-- One loop iteration of `parseProperties`: trim the line; if it is non-blank,
not a `#` comment and contains `=`, split on `=`, take the first segment as the
key and join the rest back with `=` as the value, both trimmed. -/
def propStep (props : ConfigObject) (line : List Char) : ConfigObject :=
  let trimmed := trimL line
  if !trimmed.isEmpty && !isPre "#".data trimmed && trimmed.contains '=' then
    match jsSplit '=' trimmed with
    | [] => props
    | key :: valueParts =>
      jsInsert props (String.mk (trimL key))
        (.scalar (.str (String.mk (trimL (jsJoin '=' valueParts)))))
  else props

/-- `parseProperties` from `parsers.ts`: fold `propStep` over the lines. -/
def parseProperties (content : String) : ConfigObject :=
  (jsSplit '\n' content.data).foldl propStep []

/-- The two error kinds `parseConfig` can raise. -/
inductive ParseErr where
  | formatUndetected (filepath : String)
  | parseError (format : ConfigFormat)
deriving DecidableEq, Repr

/-- Dispatch to the parser for a format: `properties` runs the in-repo
`parseProperties` (which never fails); the other five formats call external
libraries, modelled by the oracle `lib` (`none` = the library throws). -/
def runParser (lib : ConfigFormat → String → Option ConfigObject)
    (fmt : ConfigFormat) (content : String) : Option ConfigObject :=
  match fmt with
  | .properties => some (parseProperties content)
  | _ => lib fmt content

/-- The format `parseConfig` settles on: content-based detection first,
extension fallback second. -/
def chosenFormat (jsonOk tomlOk : String → Bool) (content filepath : String) :
    Option ConfigFormat :=
  match detectFormat jsonOk tomlOk content with
  | some f => some f
  | none => getFormatFromExtension filepath

/-- `parseConfig` from `parsers.ts`: content-based detection first, extension
fallback second, then dispatch to the chosen format's parser. -/
def parseConfig (lib : ConfigFormat → String → Option ConfigObject)
    (jsonOk tomlOk : String → Bool) (content filepath : String) :
    Except ParseErr (ConfigObject × ConfigFormat) :=
  match chosenFormat jsonOk tomlOk content filepath with
  | none => .error (.formatUndetected filepath)
  | some fmt =>
    match runParser lib fmt content with
    | some config => .ok (config, fmt)
    | none => .error (.parseError fmt)

mutual

/-- `flattenConfig` from `parsers.ts`.  Scalars (including `null`) at a
non-empty prefix emit `{pre: value}` and at the empty prefix emit nothing;
arrays and objects recurse via `flattenArr` / `flattenObj`.  The merging
`Object.assign` calls are list concatenation: the bracket/dot key scheme
makes collisions impossible, so overwrite never happens. -/
def flattenConfig (node : ConfigNode) (pre sep : String) :
    List (String × Scalar) :=
  match node with
  | .scalar v => if pre = "" then [] else [(pre, v)]
  | .arr elems => flattenArr elems 0 pre sep
  | .obj entries => flattenObj entries pre sep

/-- The `obj.forEach((item, index) => ...)` loop of `flattenConfig`: element
at index `i` recurses with key `pre ++ "[" ++ i ++ "]"` (when `pre` is empty
the code's ternary produces the same `"[" ++ i ++ "]"`). -/
def flattenArr (elems : List ConfigNode) (i : Nat) (pre sep : String) :
    List (String × Scalar) :=
  match elems with
  | [] => []
  | e :: rest =>
    flattenConfig e (pre ++ "[" ++ toString i ++ "]") sep
      ++ flattenArr rest (i + 1) pre sep

/-- The `Object.entries` loop of `flattenConfig`: entry key becomes
`pre ++ sep ++ key` (just `key` at empty prefix); object/array values
recurse, everything else (scalars and `null`) is emitted directly. -/
def flattenObj (entries : List (String × ConfigNode)) (pre sep : String) :
    List (String × Scalar) :=
  match entries with
  | [] => []
  | (k, v) :: rest =>
    let newKey := if pre = "" then k else pre ++ sep ++ k
    (match v with
     | .scalar s => [(newKey, s)]
     | .arr es => flattenConfig (.arr es) newKey sep
     | .obj es => flattenConfig (.obj es) newKey sep)
      ++ flattenObj rest pre sep

end

/-- A reported value difference (`types.ts`).  The stored values are the JS
expressions `source[key]` / `target[key]`, hence `Option`: `none` models
`undefined` for an absent key. -/
structure ValueDifference where
  key : String
  sourceValue : Option Scalar
  targetValue : Option Scalar
deriving DecidableEq, Repr

/-- `compareFlatConfigs`'s result (`ComparisonResult` minus file metadata). -/
structure ComparisonCore where
  onlyInSource : List String
  onlyInTarget : List String
  common : List String
  valueDifferences : List ValueDifference
deriving DecidableEq, Repr

/-- The key list of a flat config (`Object.keys`; JS object keys are unique,
so the `new Set(...)` wrapper in the source is the identity). -/
def keysOf (cfg : FlatConfig) : List String := cfg.map Prod.fst

/-- JS property read `cfg[k]`: first binding of `k`, `none` = `undefined`. -/
def valueAt (cfg : FlatConfig) (k : String) : Option Scalar :=
  (cfg.find? (fun p => p.1 == k)).map Prod.snd

/-- `String(cfg[k])` as JS evaluates it (`String(undefined) = "undefined"`). -/
def jsStringAt (cfg : FlatConfig) (k : String) : String :=
  match valueAt cfg k with
  | some v => jsString v
  | none => "undefined"

/-- Lexicographic comparison of character lists by code point: the order JS
`Array.prototype.sort()` applies to string elements. -/
def charLe : List Char → List Char → Bool
  | [], _ => true
  | _ :: _, [] => false
  | a :: ra, b :: rb => if a = b then charLe ra rb else decide (a < b)

/-- The default JS `.sort()` comparator on strings: lexicographic on the raw
string.  Proved below (`strLe_eq_decide`) to agree with the standard linear
order on `String`. -/
def strLe (a b : String) : Bool := charLe a.data b.data

/-- `compareFlatConfigs` from `comparator.ts`.  `.sort()` on string arrays is
lexicographic on the raw strings, modelled by `mergeSort` with `strLe`. -/
def compareFlatConfigs (source target : FlatConfig) : ComparisonCore :=
  let sourceKeys := keysOf source
  let targetKeys := keysOf target
  let onlyInSource := (sourceKeys.filter (fun k => !targetKeys.contains k)).mergeSort strLe
  let onlyInTarget := (targetKeys.filter (fun k => !sourceKeys.contains k)).mergeSort strLe
  let common := (sourceKeys.filter (fun k => targetKeys.contains k)).mergeSort strLe
  let valueDifferences :=
    (common.filter (fun k => jsStringAt source k != jsStringAt target k)).map
      (fun k => ⟨k, valueAt source k, valueAt target k⟩)
  ⟨onlyInSource, onlyInTarget, common, valueDifferences⟩

/-! ## Shared lemmas -/

theorem charLe_iff : ∀ xs ys : List Char, charLe xs ys = true ↔ ¬ List.Lex (· < ·) ys xs
  | [], [] => by simp [charLe]
  | [], y :: ys => by simp [charLe]
  | x :: xs, [] => by simp [charLe]; exact List.Lex.nil
  | x :: xs, y :: ys => by
    by_cases h : x = y
    · subst h
      rw [charLe, if_pos rfl, charLe_iff xs ys]
      constructor
      · intro hn hl
        exact hn (by cases hl with
          | cons h => exact h
          | rel h => exact absurd h (lt_irrefl x))
      · intro hn hl
        exact hn (List.Lex.cons hl)
    · rw [charLe, if_neg h]
      simp only [decide_eq_true_eq]
      constructor
      · intro hlt hl
        cases hl with
        | cons _ => exact h rfl
        | rel h2 => exact absurd hlt (asymm h2)
      · intro hn
        rcases lt_trichotomy x y with h1 | h1 | h1
        · exact h1
        · exact absurd h1 h
        · exact absurd (List.Lex.rel h1) hn

/-- The JS sort comparator agrees with the standard linear order on `String`
(which is lexicographic on the character list). -/
theorem strLe_eq_decide (a b : String) : strLe a b = decide (a ≤ b) := by
  by_cases h : a ≤ b
  · rw [decide_eq_true h, strLe, charLe_iff]
    intro hl
    rw [String.le_iff_toList_le, ← not_lt] at h
    exact h hl
  · rw [decide_eq_false h, strLe, ← Bool.not_eq_true, charLe_iff, not_not]
    rw [String.le_iff_toList_le, not_le] at h
    exact h

theorem sorted_mergeSort_strLe (l : List String) :
    List.Sorted (· ≤ ·) (l.mergeSort strLe) := by
  have he : l.mergeSort strLe = l.mergeSort (fun a b => decide (a ≤ b)) := by
    congr 1
    funext a b
    exact strLe_eq_decide a b
  rw [he]
  exact List.sorted_mergeSort' l

theorem mem_onlyInSource (source target : FlatConfig) (k : String) :
    k ∈ (compareFlatConfigs source target).onlyInSource ↔
      k ∈ keysOf source ∧ ¬ k ∈ keysOf target := by
  simp [compareFlatConfigs, List.mem_mergeSort, List.mem_filter]

theorem mem_onlyInTarget (source target : FlatConfig) (k : String) :
    k ∈ (compareFlatConfigs source target).onlyInTarget ↔
      k ∈ keysOf target ∧ ¬ k ∈ keysOf source := by
  simp [compareFlatConfigs, List.mem_mergeSort, List.mem_filter]

theorem mem_common (source target : FlatConfig) (k : String) :
    k ∈ (compareFlatConfigs source target).common ↔
      k ∈ keysOf source ∧ k ∈ keysOf target := by
  simp [compareFlatConfigs, List.mem_mergeSort, List.mem_filter]

theorem mem_valueDifferences (source target : FlatConfig) (d : ValueDifference) :
    d ∈ (compareFlatConfigs source target).valueDifferences ↔
      ∃ k, (k ∈ keysOf source ∧ k ∈ keysOf target) ∧
        jsStringAt source k ≠ jsStringAt target k ∧
        d = ⟨k, valueAt source k, valueAt target k⟩ := by
  simp only [compareFlatConfigs, List.mem_map, List.mem_filter, List.mem_mergeSort]
  constructor
  · rintro ⟨k, hk, h⟩
    refine ⟨k, ?_, ?_, h.symm⟩
    · simpa [List.mem_filter, List.mem_mergeSort] using hk.1
    · simpa using hk.2
  · rintro ⟨k, hk, hne, h⟩
    refine ⟨k, ⟨?_, by simpa using hne⟩, h.symm⟩
    simpa [List.mem_filter, List.mem_mergeSort] using hk

/-! ## C1 -/

/-- C1: for every pair of flat configs, the `compareFlatConfigs` result
satisfies the partition law: `onlyInSource`, `common`, `onlyInTarget` are
pairwise disjoint, `common` holds exactly the keys present in both mappings,
and the union of the three key sets is `keys source ∪ keys target`. -/
theorem compare_partition_law (source target : FlatConfig) :
    (∀ k, ¬(k ∈ (compareFlatConfigs source target).onlyInSource ∧
            k ∈ (compareFlatConfigs source target).common)) ∧
    (∀ k, ¬(k ∈ (compareFlatConfigs source target).onlyInSource ∧
            k ∈ (compareFlatConfigs source target).onlyInTarget)) ∧
    (∀ k, ¬(k ∈ (compareFlatConfigs source target).common ∧
            k ∈ (compareFlatConfigs source target).onlyInTarget)) ∧
    (∀ k, k ∈ (compareFlatConfigs source target).common ↔
            k ∈ keysOf source ∧ k ∈ keysOf target) ∧
    (∀ k, (k ∈ (compareFlatConfigs source target).onlyInSource ∨
           k ∈ (compareFlatConfigs source target).common ∨
           k ∈ (compareFlatConfigs source target).onlyInTarget) ↔
          (k ∈ keysOf source ∨ k ∈ keysOf target)) := by
  refine ⟨fun k => ?_, fun k => ?_, fun k => ?_, fun k => mem_common _ _ _, fun k => ?_⟩ <;>
    simp only [mem_onlyInSource, mem_onlyInTarget, mem_common] <;> tauto

/-! ## C2 -/

unseal List.merge List.mergeSort in
/-- C2: `valueDifferences` holds exactly one entry per common key whose
stringified values differ, preserving the original (non-stringified) values;
every such key is in `common`, no key repeats (given that the source mapping's
keys are unique, as JS object keys are), and comparing `{a: 5432}` against
`{a: "5432"}` yields no value difference. -/
theorem valueDifferences_exact (source target : FlatConfig)
    (hnd : (keysOf source).Nodup) :
    (∀ d ∈ (compareFlatConfigs source target).valueDifferences,
       d.key ∈ (compareFlatConfigs source target).common ∧
       d.sourceValue = valueAt source d.key ∧
       d.targetValue = valueAt target d.key ∧
       jsStringAt source d.key ≠ jsStringAt target d.key) ∧
    (∀ k ∈ (compareFlatConfigs source target).common,
       jsStringAt source k ≠ jsStringAt target k →
       (⟨k, valueAt source k, valueAt target k⟩ : ValueDifference) ∈
         (compareFlatConfigs source target).valueDifferences) ∧
    ((compareFlatConfigs source target).valueDifferences.map ValueDifference.key).Nodup ∧
    (compareFlatConfigs [("a", Scalar.num 5432)] [("a", Scalar.str "5432")]).valueDifferences
      = [] := by
  refine ⟨?_, ?_, ?_, by decide⟩
  · intro d hd
    rw [mem_valueDifferences] at hd
    obtain ⟨k, hk, hne, rfl⟩ := hd
    exact ⟨(mem_common _ _ _).mpr hk, rfl, rfl, hne⟩
  · intro k hk hne
    rw [mem_valueDifferences]
    exact ⟨k, (mem_common _ _ _).mp hk, hne, rfl⟩
  · have hc : ((compareFlatConfigs source target).common).Nodup := by
      simp only [compareFlatConfigs]
      exact ((List.mergeSort_perm _ _).nodup_iff).mpr (hnd.filter _)
    have hmap : (compareFlatConfigs source target).valueDifferences.map ValueDifference.key
        = ((compareFlatConfigs source target).common).filter
            (fun k => jsStringAt source k != jsStringAt target k) := by
      simp only [compareFlatConfigs, List.map_map]
      exact List.map_id _
    rw [hmap]
    exact hc.filter _

unseal List.merge List.mergeSort in
/-- Witness for C2 at a concrete pair of one-key configs. -/
theorem valueDifferences_exact_witness :
    (keysOf [("a", Scalar.num 5432)]).Nodup ∧
    (compareFlatConfigs [("a", Scalar.num 5432)] [("a", Scalar.str "5432")]).valueDifferences
      = [] :=
  ⟨by decide,
   (valueDifferences_exact [("a", Scalar.num 5432)] [("a", Scalar.str "5432")]
     (by decide)).2.2.2⟩

/-! ## C5 -/

unseal List.merge List.mergeSort in
/-- C5: `onlyInSource`, `onlyInTarget` and `common` are each sorted
ascending in the lexicographic string order (`String`'s standard linear
order, lexicographic on the character list), and the raw-string order puts
`"a[10]"` before `"a[2]"`. -/
theorem compare_sorted_lexicographic (source target : FlatConfig) :
    List.Sorted (· ≤ ·) (compareFlatConfigs source target).onlyInSource ∧
    List.Sorted (· ≤ ·) (compareFlatConfigs source target).onlyInTarget ∧
    List.Sorted (· ≤ ·) (compareFlatConfigs source target).common ∧
    (compareFlatConfigs [("a[10]", Scalar.num 1), ("a[2]", Scalar.num 2)] []).onlyInSource
      = ["a[10]", "a[2]"] :=
  ⟨sorted_mergeSort_strLe _, sorted_mergeSort_strLe _, sorted_mergeSort_strLe _, by decide⟩

/-! ## C6 -/

theorem flattenArr_eq_enumFrom :
    ∀ (elems : List ConfigNode) (i : Nat) (pre sep : String),
      flattenArr elems i pre sep =
        ((elems.enumFrom i).map
          (fun p => flattenConfig p.2 (pre ++ "[" ++ toString p.1 ++ "]") sep)).flatten
  | [], _, _, _ => by simp [flattenArr]
  | e :: rest, i, pre, sep => by
    simp [flattenArr, List.enumFrom_cons, flattenArr_eq_enumFrom rest (i + 1) pre sep]

/-- C6: the flatten rules.  A `null` at the empty prefix emits nothing and at
a non-empty prefix emits `{prefix: null}`; a sequence element at index `i`
recurses with key `prefix ++ "[" ++ i ++ "]"` (the same string as
`"[" ++ i ++ "]"` when the prefix is empty); a mapping entry uses
`prefix ++ sep ++ key` (just `key` at the empty prefix), recursing on object
and array values and emitting scalars directly; and the three concrete
flatten scenarios from the specification hold. -/
theorem flatten_rules :
    (∀ sep : String, flattenConfig (.scalar .null) "" sep = []) ∧
    (∀ (pre sep : String), pre ≠ "" →
       flattenConfig (.scalar .null) pre sep = [(pre, Scalar.null)]) ∧
    (∀ (elems : List ConfigNode) (pre sep : String),
       flattenConfig (.arr elems) pre sep =
         (elems.enum.map
           (fun p => flattenConfig p.2 (pre ++ "[" ++ toString p.1 ++ "]") sep)).flatten) ∧
    (∀ (k : String) (s : Scalar) (entries : List (String × ConfigNode)) (pre sep : String),
       flattenObj ((k, .scalar s) :: entries) pre sep =
         ((if pre = "" then k else pre ++ sep ++ k), s) :: flattenObj entries pre sep) ∧
    (∀ (k : String) (es : List ConfigNode) (entries : List (String × ConfigNode))
       (pre sep : String),
       flattenObj ((k, .arr es) :: entries) pre sep =
         flattenConfig (.arr es) (if pre = "" then k else pre ++ sep ++ k) sep
           ++ flattenObj entries pre sep) ∧
    (∀ (k : String) (es : List (String × ConfigNode)) (entries : List (String × ConfigNode))
       (pre sep : String),
       flattenObj ((k, .obj es) :: entries) pre sep =
         flattenConfig (.obj es) (if pre = "" then k else pre ++ sep ++ k) sep
           ++ flattenObj entries pre sep) ∧
    flattenConfig (.obj [("a", .obj [("b", .scalar (.num 1))])]) "" "."
      = [("a.b", Scalar.num 1)] ∧
    flattenConfig (.obj [("items", .arr [.scalar (.str "x"), .scalar (.str "y")])]) "" "."
      = [("items[0]", Scalar.str "x"), ("items[1]", Scalar.str "y")] ∧
    flattenConfig (.obj [("a", .scalar .null)]) "" "." = [("a", Scalar.null)] := by
  refine ⟨fun sep => by simp [flattenConfig],
          fun pre sep h => by simp [flattenConfig, h],
          fun elems pre sep => ?_,
          fun k s entries pre sep => by simp [flattenObj],
          fun k es entries pre sep => by simp [flattenObj],
          fun k es entries pre sep => by simp [flattenObj],
          by decide, by decide, by decide⟩
  rw [show flattenConfig (.arr elems) pre sep = flattenArr elems 0 pre sep from rfl,
    flattenArr_eq_enumFrom]
  rfl

/-- Witness for C6's null-at-non-empty-prefix rule at prefix `"a"`. -/
theorem flatten_rules_witness :
    flattenConfig (.scalar .null) "a" "." = [("a", Scalar.null)] :=
  flatten_rules.2.1 "a" "." (by decide)

/-! ## C9 -/

/-- C9: a common key holding `null` on one side and the string `"null"` on the
other produces no value difference, because both stringify to `"null"`. -/
theorem null_vs_string_null_no_difference (source target : FlatConfig) (k : String)
    (h : (valueAt source k = some Scalar.null ∧
          valueAt target k = some (Scalar.str "null")) ∨
         (valueAt source k = some (Scalar.str "null") ∧
          valueAt target k = some Scalar.null)) :
    k ∉ (compareFlatConfigs source target).valueDifferences.map ValueDifference.key := by
  intro hk
  rw [List.mem_map] at hk
  obtain ⟨d, hd, hdk⟩ := hk
  rw [mem_valueDifferences] at hd
  obtain ⟨k', hk', hne, rfl⟩ := hd
  replace hdk : k' = k := hdk
  subst hdk
  rcases h with ⟨h1, h2⟩ | ⟨h1, h2⟩ <;>
    exact hne (by simp [jsStringAt, h1, h2, jsString])

unseal List.merge List.mergeSort in
/-- Witness for C9: `null` in the source against `"null"` in the target. -/
theorem null_vs_string_null_no_difference_witness :
    (valueAt [("a", Scalar.null)] "a" = some Scalar.null ∧
     valueAt [("a", Scalar.str "null")] "a" = some (Scalar.str "null")) ∧
    "a" ∉ (compareFlatConfigs [("a", Scalar.null)]
        [("a", Scalar.str "null")]).valueDifferences.map ValueDifference.key :=
  ⟨⟨by decide, by decide⟩,
   null_vs_string_null_no_difference [("a", Scalar.null)] [("a", Scalar.str "null")] "a"
     (Or.inl ⟨by decide, by decide⟩)⟩

/-! ## C10 -/

unseal List.merge List.mergeSort in
/-- C10: a mapping entry whose value is an empty object or empty array
contributes nothing to the flattened config — `flattenConfig {a:{}}` and
`flattenConfig {a:[]}` are empty — so such an entry shows up in none of
`onlyInSource`, `onlyInTarget`, `common` when the configs are compared. -/
theorem empty_container_entries_invisible :
    (∀ (k : String) (entries : List (String × ConfigNode)) (pre sep : String),
       flattenObj ((k, .obj []) :: entries) pre sep = flattenObj entries pre sep) ∧
    (∀ (k : String) (entries : List (String × ConfigNode)) (pre sep : String),
       flattenObj ((k, .arr []) :: entries) pre sep = flattenObj entries pre sep) ∧
    flattenConfig (.obj [("a", .obj [])]) "" "." = [] ∧
    flattenConfig (.obj [("a", .arr [])]) "" "." = [] ∧
    compareFlatConfigs (flattenConfig (.obj [("a", .obj [])]) "" ".")
        (flattenConfig (.obj []) "" ".") = ⟨[], [], [], []⟩ ∧
    compareFlatConfigs (flattenConfig (.obj []) "" ".")
        (flattenConfig (.obj [("a", .arr [])]) "" ".") = ⟨[], [], [], []⟩ := by
  refine ⟨?_, ?_, by decide, by decide, by decide, by decide⟩ <;>
    · intro k entries pre sep
      simp [flattenObj, flattenConfig, flattenArr]

/-! ## Detector regex lemmas

A match of one of the `/m` regexes that stays within a single line is in
particular a match over the whole content: the per-line signals imply the
content-level ones. -/

theorem jsSplit_ne_nil (sep : Char) : ∀ l : List Char, jsSplit sep l ≠ []
  | [] => by simp [jsSplit]
  | c :: rest => by
    rw [jsSplit]
    cases h : jsSplit sep rest with
    | nil => simp
    | cons a t => by_cases hc : c = sep <;> simp [hc]

theorem wsThenLineEnd_append {tail suffix : List Char}
    (ht : tail.all jsWs = true)
    (hs : suffix = [] ∨ ∃ r, suffix = '\n' :: r) :
    wsThenLineEnd (tail ++ suffix) = true := by
  induction tail with
  | nil =>
    rcases hs with rfl | ⟨r, rfl⟩
    · rfl
    · simp [wsThenLineEnd]
  | cons c t ih =>
    rw [List.all_cons, Bool.and_eq_true] at ht
    rw [List.cons_append, wsThenLineEnd]
    by_cases hc : c = '\n'
    · simp [hc]
    · simp [hc, ht.1, ih ht.2]

theorem sectionAt_append {L suffix : List Char} (hL : sectionLine L = true)
    (hs : suffix = [] ∨ ∃ r, suffix = '\n' :: r) :
    sectionAt (L ++ suffix) = true := by
  unfold sectionLine at hL
  split at hL
  case h_2 => exact absurd hL (by simp)
  case h_1 rest heq =>
    rw [Bool.and_eq_true] at hL
    obtain ⟨hne, hL2⟩ := hL
    split at hL2
    case h_2 => exact absurd hL2 (by simp)
    case h_1 tail heq2 =>
      have hd2 : (L ++ suffix).dropWhile jsWs = '[' :: (rest ++ suffix) := by
        rw [List.dropWhile_append, heq]
        simp
      have hdrop_ne : rest.dropWhile (fun c => !(c == '[' || c == ']')) ≠ [] := by
        rw [heq2]; simp
      have htw : (rest ++ suffix).takeWhile (fun c => !(c == '[' || c == ']'))
          = rest.takeWhile (fun c => !(c == '[' || c == ']')) := by
        rw [List.takeWhile_append, if_neg]
        intro hlen
        apply hdrop_ne
        have hsum := List.takeWhile_append_dropWhile
          (p := fun c => !(c == '[' || c == ']')) (l := rest)
        have hlen2 := congrArg List.length hsum
        rw [List.length_append, hlen] at hlen2
        have : (rest.dropWhile (fun c => !(c == '[' || c == ']'))).length = 0 := by omega
        exact List.length_eq_zero.mp this
      have hdw : (rest ++ suffix).dropWhile (fun c => !(c == '[' || c == ']'))
          = ']' :: (tail ++ suffix) := by
        rw [List.dropWhile_append, heq2]
        simp
      unfold sectionAt
      rw [hd2]
      simp only [htw, hdw, hne, Bool.true_and]
      exact wsThenLineEnd_append hL2 hs

theorem assignAt_append {L suffix : List Char} (hL : assignLine L = true)
    (hs : suffix = [] ∨ ∃ r, suffix = '\n' :: r) :
    assignAt (L ++ suffix) = true := by
  unfold assignLine at hL
  match L, hL with
  | c :: rest, hL =>
    rw [Bool.and_eq_true] at hL
    obtain ⟨hstart, hL2⟩ := hL
    split at hL2
    case h_2 => exact absurd hL2 (by simp)
    case h_1 t heq =>
      have hident_ne : rest.dropWhile identChar ≠ [] := by
        intro h0
        rw [h0] at heq
        simp [List.dropWhile] at heq
      have h1 : (rest ++ suffix).dropWhile identChar
          = rest.dropWhile identChar ++ suffix := by
        rw [List.dropWhile_append, if_neg]
        simpa using hident_ne
      have h2 : (rest.dropWhile identChar ++ suffix).dropWhile jsWs
          = '=' :: (t ++ suffix) := by
        rw [List.dropWhile_append, heq]
        simp
      rw [List.cons_append]
      show (isIdentStart c &&
        match ((rest ++ suffix).dropWhile identChar).dropWhile jsWs with
        | '=' :: _ => true
        | _ => false) = true
      rw [h1, h2]
      simp [hstart]

theorem jsSplit_head {sep : Char} :
    ∀ {cs h : List Char} {t : List (List Char)},
      jsSplit sep cs = h :: t → cs = h ∨ ∃ r, cs = h ++ sep :: r
  | [], h, t, he => by
    simp [jsSplit] at he
    exact Or.inl he.1.symm
  | c :: rest, h, t, he => by
    cases hsp : jsSplit sep rest with
    | nil => exact absurd hsp (jsSplit_ne_nil sep rest)
    | cons h0 t0 =>
      simp only [jsSplit, hsp] at he
      by_cases hc : c = sep
      · rw [if_pos hc] at he
        injection he with he1 he2
        subst he1
        subst hc
        exact Or.inr ⟨rest, rfl⟩
      · rw [if_neg hc] at he
        injection he with he1 he2
        subst he1
        rcases jsSplit_head hsp with he3 | ⟨r, he3⟩
        · exact Or.inl (by rw [he3])
        · exact Or.inr ⟨r, by rw [he3, List.cons_append]⟩

/-- A line matching a per-line signal gives a content-level match from the
corresponding line-start anchor (first part), and a match on a non-first line
gives one from an after-newline anchor (second part). -/
theorem any_suffixes_of_any_lines {f g : List Char → Bool}
    (hfg : ∀ L suffix, f L = true → (suffix = [] ∨ ∃ r, suffix = '\n' :: r) →
      g (L ++ suffix) = true) :
    ∀ cs : List Char,
      ((jsSplit '\n' cs).any f = true → (lineStartSuffixes cs).any g = true) ∧
      (((jsSplit '\n' cs).tail).any f = true → (afterNewlines cs).any g = true)
  | [] => by
    constructor
    · intro h
      simp only [jsSplit, List.any_cons, List.any_nil, Bool.or_false] at h
      have hg := hfg [] [] h (Or.inl rfl)
      rw [List.nil_append] at hg
      simp [lineStartSuffixes, afterNewlines, hg]
    · intro h
      simp [jsSplit] at h
  | c :: rest => by
    obtain ⟨ih1, ih2⟩ := any_suffixes_of_any_lines hfg rest
    cases hsp : jsSplit '\n' rest with
    | nil => exact absurd hsp (jsSplit_ne_nil _ rest)
    | cons h0 t0 =>
      rw [hsp] at ih1 ih2
      have hsplit : jsSplit '\n' (c :: rest)
          = if c = '\n' then [] :: h0 :: t0 else (c :: h0) :: t0 := by
        simp only [jsSplit, hsp]
      by_cases hc : c = '\n'
      · rw [if_pos hc] at hsplit
        have hout : afterNewlines (c :: rest) = rest :: afterNewlines rest := by
          simp [afterNewlines, hc]
        constructor
        · intro h
          rw [hsplit, List.any_eq_true] at h
          obtain ⟨L, hmem, hf⟩ := h
          rw [List.any_eq_true]
          rcases List.mem_cons.mp hmem with rfl | hmem2
          · refine ⟨c :: rest, List.mem_cons_self _ _, ?_⟩
            have hg := hfg [] ('\n' :: rest) hf (Or.inr ⟨rest, rfl⟩)
            rw [List.nil_append] at hg
            rw [hc]
            exact hg
          · have h1 := ih1 (List.any_eq_true.mpr ⟨L, hmem2, hf⟩)
            rw [List.any_eq_true] at h1
            obtain ⟨S, hS, hg⟩ := h1
            refine ⟨S, ?_, hg⟩
            rw [show lineStartSuffixes (c :: rest)
                = (c :: rest) :: rest :: afterNewlines rest from by
              rw [lineStartSuffixes, hout]]
            exact List.mem_cons_of_mem _ hS
        · intro h
          rw [hsplit, List.tail_cons] at h
          rw [hout]
          exact ih1 h
      · rw [if_neg hc] at hsplit
        have hout : afterNewlines (c :: rest) = afterNewlines rest := by
          simp [afterNewlines, hc]
        constructor
        · intro h
          rw [hsplit, List.any_eq_true] at h
          obtain ⟨L, hmem, hf⟩ := h
          rw [List.any_eq_true]
          rcases List.mem_cons.mp hmem with rfl | hmem2
          · refine ⟨c :: rest, List.mem_cons_self _ _, ?_⟩
            rcases jsSplit_head hsp with he | ⟨r, he⟩
            · have hg := hfg (c :: h0) [] hf (Or.inl rfl)
              rw [List.append_nil] at hg
              rw [he]
              exact hg
            · have hg := hfg (c :: h0) ('\n' :: r) hf (Or.inr ⟨r, rfl⟩)
              rw [he, ← List.cons_append]
              exact hg
          · have h1 := ih2 (List.any_eq_true.mpr ⟨L, hmem2, hf⟩)
            rw [List.any_eq_true] at h1
            obtain ⟨S, hS, hg⟩ := h1
            refine ⟨S, ?_, hg⟩
            rw [show lineStartSuffixes (c :: rest)
                = (c :: rest) :: afterNewlines rest from by
              rw [lineStartSuffixes, hout]]
            exact List.mem_cons_of_mem _ hS
        · intro h
          rw [hsplit, List.tail_cons] at h
          rw [hout]
          exact ih2 h

/-- A line that is exactly a bracketed section name makes the code's
`hasSection` regex fire. -/
theorem hasSection_of_lines {content : String}
    (h : (linesOf content).any sectionLine = true) : hasSection content = true :=
  (any_suffixes_of_any_lines
    (fun _ _ hL hs => sectionAt_append hL hs) content.data).1 h

/-- A line beginning with an identifier-like token followed by `=` makes the
code's `hasSectionAssignment` regex fire. -/
theorem hasSectionAssignment_of_lines {content : String}
    (h : (linesOf content).any assignLine = true) :
    hasSectionAssignment content = true :=
  (any_suffixes_of_any_lines
    (fun _ _ hL hs => assignAt_append hL hs) content.data).1 h

/-! ## C3 -/

/-- C7: whenever detection reaches step 3 with both the section-header and
key-assignment signals true, the result is `toml` if the TOML parse oracle
accepts the content and `ini` if it rejects it — so never `properties`,
`yaml` or `none` — and on `"[s]\nk = \"v\""`, given that `JSON.parse` rejects
the content and `toml.parse` accepts it (which is how the real libraries
behave on it), the result is `toml`. -/
theorem detect_toml_preference :
    (∀ (jsonOk tomlOk : String → Bool) (content : String),
       ((isPre "\x7b".data (trimL content.data) || isPre "[".data (trimL content.data))
          && jsonOk (String.mk (trimL content.data))) = false →
       isPre "<".data (trimL content.data) = false →
       containsSub (jsLower content.data) "<?xml".data = false →
       (linesOf content).any sectionLine = true →
       (linesOf content).any assignLine = true →
       detectFormat jsonOk tomlOk content
         = (if tomlOk content then some ConfigFormat.toml else some ConfigFormat.ini)) ∧
    (∀ jsonOk tomlOk : String → Bool,
       jsonOk (String.mk (trimL "[s]\nk = \"v\"".data)) = false →
       tomlOk "[s]\nk = \"v\"" = true →
       detectFormat jsonOk tomlOk "[s]\nk = \"v\"" = some ConfigFormat.toml) := by
  constructor
  · intro jsonOk tomlOk content h1 h2 h3 h4 h5
    have h4c := hasSection_of_lines h4
    have h5c := hasSectionAssignment_of_lines h5
    simp [detectFormat, h1, h2, h3, h4c, h5c]
  · intro jsonOk tomlOk hj ht
    have e2 : isPre "<".data (trimL "[s]\nk = \"v\"".data) = false := by decide
    have e3 : containsSub (jsLower "[s]\nk = \"v\"".data) "<?xml".data = false := by decide
    have e4 : hasSection "[s]\nk = \"v\"" = true := by decide
    have e5 : hasSectionAssignment "[s]\nk = \"v\"" = true := by decide
    simp [detectFormat, e2, e3, e4, e5, hj, ht]

/-- Witness for C7 at oracles matching the real libraries on the example. -/
theorem detect_toml_preference_witness :
    detectFormat (fun _ => false) (fun _ => true) "[s]\nk = \"v\""
      = some ConfigFormat.toml :=
  detect_toml_preference.2 (fun _ => false) (fun _ => true) rfl rfl

/-! ## C4 -/

theorem chosenFormat_eq_none_iff (jsonOk tomlOk : String → Bool)
    (content filepath : String) :
    chosenFormat jsonOk tomlOk content filepath = none ↔
      detectFormat jsonOk tomlOk content = none ∧
      getFormatFromExtension filepath = none := by
  cases h : detectFormat jsonOk tomlOk content <;> simp [chosenFormat, h]

/-- C4: `parseConfig` fails with `FormatUndetected` naming the filepath
exactly when neither content detection nor the extension lookup yields a
format; and when a format is chosen whose parser rejects the content, it
fails with `ParseError` tagged with that format. -/
theorem parseConfig_error_taxonomy (lib : ConfigFormat → String → Option ConfigObject)
    (jsonOk tomlOk : String → Bool) (content filepath : String) :
    (parseConfig lib jsonOk tomlOk content filepath
        = .error (.formatUndetected filepath) ↔
      (detectFormat jsonOk tomlOk content = none ∧
       getFormatFromExtension filepath = none)) ∧
    (∀ fmt : ConfigFormat,
       chosenFormat jsonOk tomlOk content filepath = some fmt →
       runParser lib fmt content = none →
       parseConfig lib jsonOk tomlOk content filepath = .error (.parseError fmt)) := by
  constructor
  · rw [← chosenFormat_eq_none_iff jsonOk tomlOk content filepath]
    cases hcf : chosenFormat jsonOk tomlOk content filepath with
    | none => simp [parseConfig, hcf]
    | some fmt =>
      simp only [parseConfig, hcf]
      cases hrp : runParser lib fmt content <;> simp [hrp]
  · intro fmt hcf hrp
    simp [parseConfig, hcf, hrp]

/-- Witness for C4 at the specification's error scenario: undetectable
content and an unknown extension. -/
theorem parseConfig_error_taxonomy_witness :
    parseConfig (fun _ _ => none) (fun _ => false) (fun _ => false)
        "not json and not anything else @#$" "x.unknownext"
      = .error (.formatUndetected "x.unknownext") :=
  (parseConfig_error_taxonomy (fun _ _ => none) (fun _ => false) (fun _ => false)
      "not json and not anything else @#$" "x.unknownext").1.mpr
    ⟨by decide, by decide⟩

/-! ## C8 -/

theorem jsSplit_of_not_mem {sep : Char} :
    ∀ {l : List Char}, sep ∉ l → jsSplit sep l = [l]
  | [], _ => rfl
  | c :: rest, h => by
    have h1 : sep ∉ rest := fun hm => h (List.mem_cons_of_mem _ hm)
    have h2 : ¬ c = sep := fun he => h (he ▸ List.mem_cons_self _ _)
    rw [jsSplit, jsSplit_of_not_mem h1]
    simp [h2]

theorem jsSplit_append {sep : Char} :
    ∀ {a : List Char}, sep ∉ a → ∀ b : List Char,
      jsSplit sep (a ++ sep :: b) = a :: jsSplit sep b
  | [], _, b => by
    rw [List.nil_append, jsSplit]
    cases h : jsSplit sep b with
    | nil => exact absurd h (jsSplit_ne_nil sep b)
    | cons x t => simp
  | c :: a, h, b => by
    have h1 : sep ∉ a := fun hm => h (List.mem_cons_of_mem _ hm)
    have h2 : ¬ c = sep := fun he => h (he ▸ List.mem_cons_self _ _)
    rw [List.cons_append, jsSplit, jsSplit_append h1 b]
    simp [h2]

theorem jsJoin_cons_cons (sep : Char) (h : List Char) (t : List (List Char)) (c : Char) :
    jsJoin sep ((c :: h) :: t) = c :: jsJoin sep (h :: t) := by
  cases t <;> simp [jsJoin]

/-- Splitting on a separator and joining the segments back with the same
separator is the identity (the `split('=')`/`join('=')` round trip the
properties parser relies on to keep later `=` characters in the value). -/
theorem jsJoin_jsSplit (sep : Char) : ∀ l : List Char, jsJoin sep (jsSplit sep l) = l
  | [] => rfl
  | c :: rest => by
    have ih := jsJoin_jsSplit sep rest
    cases h : jsSplit sep rest with
    | nil => exact absurd h (jsSplit_ne_nil sep rest)
    | cons x t =>
      rw [h] at ih
      have hrw : jsSplit sep (c :: rest)
          = if c = sep then [] :: x :: t else (c :: x) :: t := by
        simp only [jsSplit, h]
      by_cases hc : c = sep
      · rw [hrw, if_pos hc, hc]
        simp only [jsJoin, List.nil_append]
        rw [ih]
      · rw [hrw, if_neg hc, jsJoin_cons_cons, ih]

theorem jsInsert_forall {P : ConfigNode → Prop} {m : ConfigObject} {k : String}
    {v : ConfigNode} (hm : ∀ p ∈ m, P p.2) (hv : P v) :
    ∀ p ∈ jsInsert m k v, P p.2 := by
  intro p hp
  unfold jsInsert at hp
  split at hp
  · rw [List.mem_map] at hp
    obtain ⟨q, hq, rfl⟩ := hp
    by_cases hqk : q.1 = k
    · simp only [if_pos hqk]
      exact hv
    · simp only [if_neg hqk]
      exact hm q hq
  · rw [List.mem_append] at hp
    rcases hp with hp | hp
    · exact hm p hp
    · rw [List.mem_singleton] at hp
      subst hp
      exact hv

theorem propStep_forall {m : ConfigObject} (line : List Char)
    (hm : ∀ p ∈ m, ∃ s, p.2 = ConfigNode.scalar (.str s)) :
    ∀ p ∈ propStep m line, ∃ s, p.2 = ConfigNode.scalar (.str s) := by
  intro p hp
  simp only [propStep] at hp
  split at hp
  · split at hp
    · exact hm p hp
    · exact jsInsert_forall (P := fun v => ∃ s, v = ConfigNode.scalar (.str s))
        hm ⟨_, rfl⟩ p hp
  · exact hm p hp

/-- C8: per-line behavior of the properties parser.  A line whose trimmed form
is blank, starts with `#`, or has no `=` contributes nothing; a line whose
trimmed form decomposes as `a ++ "=" ++ b` with no `=` in `a` (so the split is
on the FIRST `=`, later `=` characters staying in the value) and that is not a
`#` comment stores trimmed `a` ↦ trimmed `b`; and every value in the resulting
mapping is a string. -/
theorem parseProperties_line_semantics :
    (∀ (props : ConfigObject) (line : List Char),
       ((trimL line).isEmpty = true ∨ isPre "#".data (trimL line) = true ∨
        (trimL line).contains '=' = false) →
       propStep props line = props) ∧
    (∀ (props : ConfigObject) (line : List Char) (a b : List Char),
       trimL line = a ++ '=' :: b →
       '=' ∉ a →
       isPre "#".data (a ++ '=' :: b) = false →
       propStep props line
         = jsInsert props (String.mk (trimL a))
             (.scalar (.str (String.mk (trimL b))))) ∧
    (∀ (content : String) (k : String) (v : ConfigNode),
       (k, v) ∈ parseProperties content →
       ∃ s, v = ConfigNode.scalar (.str s)) := by
  refine ⟨?_, ?_, ?_⟩
  · intro props line h
    rcases h with h | h | h
    · simp [propStep, h]
    · simp [propStep, h]
    · have h2 : ¬ '=' ∈ trimL line := by simpa using h
      simp [propStep, h2]
  · intro props line a b ht hna hh
    have hne : (a ++ '=' :: b).isEmpty = false := by cases a <;> simp
    have hcon : (a ++ '=' :: b).contains '=' = true := by simp
    simp only [propStep, ht, hne, hh, hcon, Bool.not_false, Bool.and_self,
      Bool.and_true, Bool.true_and, if_true]
    rw [jsSplit_append hna b]
    simp only [jsJoin_jsSplit]
  · have hfold : ∀ (lines : List (List Char)) (m : ConfigObject),
        (∀ p ∈ m, ∃ s, p.2 = ConfigNode.scalar (.str s)) →
        ∀ p ∈ lines.foldl propStep m, ∃ s, p.2 = ConfigNode.scalar (.str s) := by
      intro lines
      induction lines with
      | nil => intro m hm; simpa using hm
      | cons l rest ih =>
        intro m hm
        exact ih _ (propStep_forall l hm)
    intro content k v hv
    exact hfold (jsSplit '\n' content.data) [] (by simp) (k, v) hv

/-- Witness for C8's first-`=` split rule on `"server.port = 8080"`. -/
theorem parseProperties_line_semantics_witness :
    (trimL "server.port = 8080".data = "server.port ".data ++ '=' :: " 8080".data ∧
     ¬ '=' ∈ "server.port ".data ∧
     isPre "#".data ("server.port ".data ++ '=' :: " 8080".data) = false) ∧
    propStep [] "server.port = 8080".data
      = jsInsert [] (String.mk (trimL "server.port ".data))
          (.scalar (.str (String.mk (trimL " 8080".data)))) :=
  ⟨⟨by decide, by decide, by decide⟩,
   parseProperties_line_semantics.2.1 [] "server.port = 8080".data
     "server.port ".data " 8080".data (by decide) (by decide) (by decide)⟩

end ConfigCmp
